import Mathlib

/-!
Verification of the priority-merge engine, priority-file parser, cache
serialization and text highlighter of the `prioritysieve` add-on.

Python strings are modelled as `List Char` (Python indexes by code point),
Python dicts as insertion-ordered association lists, and fallible code as
`Except`/`Option` values.
-/

namespace PrioritySieve

/-- Morpheme priority key: (lemma, inflection, reading). -/
abbrev PKey := String × String × String

/-- A Python `dict[tuple[str, str, str], int]`, modelled as an
insertion-ordered association list (Python dicts preserve insertion order;
updating an existing key keeps its position). -/
abbrev PDict := List (PKey × Int)

/-- Python `dict.get(key)`: the value stored at the first (hence, for a dict, the
only) entry with this key. -/
def pget : PDict → PKey → Option Int
  | [], _ => none
  | p :: d, k => if p.1 = k then some p.2 else pget d k

/-- Source `_assign_priority_if_lower`: write `priority` at `key` when the key is
absent or the new priority is strictly lower.  A value update keeps the
entry's position, a fresh key is appended (Python dict semantics). -/
def assign_priority_if_lower (d : PDict) (k : PKey) (priority : Int) : PDict :=
  match pget d k with
  | none => d ++ [(k, priority)]
  | some existing =>
      if priority < existing then
        d.map (fun p => if p.1 = k then (k, priority) else p)
      else d

/-- Source `_merge_priorities`: fold every item of `source` into `target` with
`_assign_priority_if_lower`.  `source` is given as its `dict.items()` list. -/
def merge_priorities (target : PDict) (source : PDict) : PDict :=
  source.foldl (fun t p => assign_priority_if_lower t p.1 p.2) target

/-- The merge loop of `get_morph_priority`: starting from the empty merged
mapping, merge each selected source's mapping in turn. -/
def merge_all (sources : List PDict) : PDict :=
  sources.foldl merge_priorities []

/-- Minimum of a list of integers (`none` for the empty list). -/
def intListMin : List Int → Option Int
  | [] => none
  | v :: l =>
      some (match intListMin l with
            | none => v
            | some m => min v m)

/-- Minimum over two optional values, absent = +infinity. -/
def optMin : Option Int → Option Int → Option Int
  | none, b => b
  | some x, none => some x
  | some x, some y => some (min x y)

/-- Minimum of all values paired with key `k` in the item list `s`. -/
def minVals (s : PDict) (k : PKey) : Option Int :=
  s.foldr (fun p acc => if p.1 = k then optMin (some p.2) acc else acc) none

/-! ## Cache serialization (`debug_utils.py`)

Python strings are `List Char` here; a serialized key is one string, a
deserialized key is a tuple of strings of whatever arity the split
produced (`List (List Char)`). -/

/-- Generic `dict[key]` lookup. -/
def alookup {K : Type} [DecidableEq K] : List (K × Int) → K → Option Int
  | [], _ => none
  | p :: d, k => if p.1 = k then some p.2 else alookup d k

/-- Generic `dict[key] = value` assignment: update in place, else append. -/
def ainsert {K : Type} [DecidableEq K] (d : List (K × Int)) (k : K) (v : Int) :
    List (K × Int) :=
  match alookup d k with
  | none => d ++ [(k, v)]
  | some _ => d.map (fun p => if p.1 = k then (k, v) else p)

/-- Building a Python dict from a stream of key/value assignments
(used by both the dict comprehension in `save_to_json_file` and the load
loop in `load_dict_from_json_file`; later duplicates overwrite). -/
def dictOfItems {K : Type} [DecidableEq K] (l : List (K × Int)) : List (K × Int) :=
  l.foldl (fun d p => ainsert d p.1 p.2) []

/-- Serialization `"|".join((a, b, c))`. -/
def joinKey (a b c : List Char) : List Char := a ++ '|' :: (b ++ '|' :: c)

/-- Deserialization `key.split("|")` for the single-character delimiter. -/
def splitPipe : List Char → List (List Char)
  | [] => [[]]
  | c :: rest =>
      if c = '|' then [] :: splitPipe rest
      else
        match splitPipe rest with
        | [] => [[c]]
        | p :: ps => (c :: p) :: ps

/-- The legacy upgrade: a 2-part key gains an empty third component. -/
def upgradeKey (parts : List (List Char)) : List (List Char) :=
  if parts.length = 2 then parts ++ [[]] else parts

/-- Source `save_to_json_file`: the persisted flat mapping, i.e. the dict
comprehension joining each tuple key with the delimiter.  File I/O and the
JSON encoding itself are external; the JSON object is the item list. -/
def save_to_json_file (m : List ((List Char × List Char × List Char) × Int)) :
    List (List Char × Int) :=
  dictOfItems (m.map (fun p => (joinKey p.1.1 p.1.2.1 p.1.2.2, p.2)))

/-- Source `load_dict_from_json_file`: split each key on the delimiter, upgrade
legacy 2-part keys, and rebuild the dict. -/
def load_dict_from_json_file (j : List (List Char × Int)) :
    List (List (List Char) × Int) :=
  dictOfItems (j.map (fun p => (upgradeKey (splitPipe p.1), p.2)))

/-- A 3-tuple key as the variable-arity tuple the loader produces. -/
def tripleAsParts (k : List Char × List Char × List Char) : List (List Char) :=
  [k.1, k.2.1, k.2.2]

/-! ## Priority file parser (`morph_priority_utils.py`) -/

/-- Source `PriorityFileType`. -/
inductive PFType | PriorityFile | StudyPlan
deriving DecidableEq, Repr

/-- Source `PriorityFileFormat`. -/
inductive PFFormat | Minimal | Full
deriving DecidableEq, Repr

/-- The `PriorityFile` descriptor built from header inspection. -/
structure PriorityFile where
  type : PFType
  format : PFFormat
  lemma_header_index : Nat
  inflection_header_index : Option Nat := none
  reading_header_index : Option Nat := none
  lemma_priority_header_index : Option Nat := none
  inflection_priority_header_index : Option Nat := none
deriving DecidableEq, Repr

/-- The exceptions that can escape row extraction:
`PriorityFileMalformedException(reason)`, the `ValueError` raised by
`int(...)` on a non-numeric cell (carrying the offending cell), and the
`IndexError`/`TypeError` of an out-of-range or `None` column index. -/
inductive ParseErr
  | malformed (reason : String)
  | valueError (cell : String)
  | indexError
deriving DecidableEq, Repr

/-- Is this character Python `str.strip()` whitespace (ASCII part)? -/
def isPySpace (c : Char) : Bool :=
  c = ' ' ∨ c = '\t' ∨ c = '\n' ∨ c = '\r' ∨ c = '\x0b' ∨ c = '\x0c'

/-- Python `int(str)`: optional surrounding whitespace, optional sign, one
or more ASCII digits.  (CPython additionally accepts digit-group
underscores and non-ASCII digits; those inputs are out of scope here, so
this models a sub-language on which `int` agrees.) -/
def pythonInt (s : String) : Option Int :=
  let cs := (s.toList.dropWhile (fun c => isPySpace c)).reverse.dropWhile
      (fun c => isPySpace c) |>.reverse
  let core : List Char → Option Int := fun ds =>
    if ds ≠ [] ∧ ds.all Char.isDigit then
      some (ds.foldl (fun a c => a * 10 + (c.toNat - '0'.toNat : Nat)) 0)
    else none
  match cs with
  | '-' :: ds => (core ds).map (fun v => -v)
  | '+' :: ds => core ds
  | ds => core ds

/-- Indexing `row[i]` for `i : int` — raises `IndexError` when out of range. -/
def getCell (row : List String) (i : Nat) : Except ParseErr String :=
  match row.get? i with
  | some v => Except.ok v
  | none => Except.error ParseErr.indexError

/-- Indexing `row[i]` for `i : int | None` — `row[None]` raises in Python; modelled
as the same index-error class. -/
def getCellOpt (row : List String) (oi : Option Nat) : Except ParseErr String :=
  match oi with
  | none => Except.error ParseErr.indexError
  | some i => getCell row i

/-- Parsing `int(cell)` as an exception-raising step. -/
def parseIntCell (cell : String) : Except ParseErr Int :=
  match pythonInt cell with
  | some v => Except.ok v
  | none => Except.error (ParseErr.valueError cell)

/-- Source `_get_row_reading`: empty string when the reading column is absent or
out of range, otherwise the normalized cell.  `normalize_reading` is an
external collaborator, passed in as `normalize`. -/
def get_row_reading (normalize : String → String) (row : List String)
    (pf : PriorityFile) : String :=
  match pf.reading_header_index with
  | none => ""
  | some i =>
      match row.get? i with
      | none => ""
      | some v => normalize v

/-- Source `_populate_priorities_with_lemmas_and_inflections_from_full_priority_file`.
`penalty` is `MORPH_UNKNOWN_PENALTY` (defined in the scoring module, which
is outside the parsed sources; the claims hold for every value of it). -/
def populate_full_priority_file_inflections (penalty : Nat)
    (normalize : String → String) (pf : PriorityFile) :
    Nat → List (List String) → PDict → Except ParseErr PDict
  | _, [], d => Except.ok d
  | index, row :: rest, d =>
      if index > penalty then Except.ok d
      else do
        let lem ← getCell row pf.lemma_header_index
        let infl ← getCellOpt row pf.inflection_header_index
        let reading := get_row_reading normalize row pf
        let cell ← getCellOpt row pf.inflection_priority_header_index
        let priority ← parseIntCell cell
        populate_full_priority_file_inflections penalty normalize pf (index + 1)
          rest (assign_priority_if_lower d (lem, infl, reading) priority)

/-- Source `_populate_priorities_with_lemmas_and_inflections_from_full_study_plan`:
implicit priority = zero-based row index. -/
def populate_full_study_plan (penalty : Nat) (normalize : String → String)
    (pf : PriorityFile) :
    Nat → List (List String) → PDict → Except ParseErr PDict
  | _, [], d => Except.ok d
  | index, row :: rest, d =>
      if index > penalty then Except.ok d
      else do
        let lem ← getCell row pf.lemma_header_index
        let infl ← getCellOpt row pf.inflection_header_index
        let reading := get_row_reading normalize row pf
        populate_full_study_plan penalty normalize pf (index + 1) rest
          (assign_priority_if_lower d (lem, infl, reading) (index : Int))

/-- Source `_populate_priorities_with_lemmas_from_full_priority_file`:
key = (lemma, lemma, reading), explicit lemma-priority column. -/
def populate_full_priority_file_lemmas (penalty : Nat)
    (normalize : String → String) (pf : PriorityFile) :
    Nat → List (List String) → PDict → Except ParseErr PDict
  | _, [], d => Except.ok d
  | index, row :: rest, d =>
      if index > penalty then Except.ok d
      else do
        let lem ← getCell row pf.lemma_header_index
        let reading := get_row_reading normalize row pf
        let cell ← getCellOpt row pf.lemma_priority_header_index
        let priority ← parseIntCell cell
        populate_full_priority_file_lemmas penalty normalize pf (index + 1) rest
          (assign_priority_if_lower d (lem, lem, reading) priority)

/-- Source `_populate_priorities_with_lemmas_from_minimal_priority_file`:
key = (lemma, lemma, reading), implicit priority = row index. -/
def populate_minimal_priority_file (penalty : Nat) (normalize : String → String)
    (pf : PriorityFile) :
    Nat → List (List String) → PDict → Except ParseErr PDict
  | _, [], d => Except.ok d
  | index, row :: rest, d =>
      if index > penalty then Except.ok d
      else do
        let lem ← getCell row pf.lemma_header_index
        let reading := get_row_reading normalize row pf
        populate_minimal_priority_file penalty normalize pf (index + 1) rest
          (assign_priority_if_lower d (lem, lem, reading) (index : Int))

/-- Source `_get_morph_priorities_from_file`: the compatibility dispatch over
(evaluation mode, format, type), then row extraction. -/
def get_morph_priorities_from_file (penalty : Nat) (normalize : String → String)
    (pf : PriorityFile) (only_lemma_priorities : Bool)
    (rows : List (List String)) : Except ParseErr PDict :=
  if only_lemma_priorities then
    if pf.format = PFFormat.Full then
      if pf.type = PFType.StudyPlan then
        Except.error (ParseErr.malformed
          "Study plans containing inflections are incompatible with the \x27evaluate lemmas\x27 option.")
      else
        populate_full_priority_file_lemmas penalty normalize pf 0 rows []
    else
      populate_minimal_priority_file penalty normalize pf 0 rows []
  else
    if pf.format = PFFormat.Minimal then
      Except.error (ParseErr.malformed
        "Priority files or study plans without inflections are incompatible with the \x27evaluate inflections\x27 option.")
    else if pf.type = PFType.PriorityFile then
      populate_full_priority_file_inflections penalty normalize pf 0 rows []
    else if pf.type = PFType.StudyPlan then
      populate_full_study_plan penalty normalize pf 0 rows []
    else
      Except.error (ParseErr.malformed "unsupported priority file type or format")

/-- The priority column a full-format priority file consults in the given
evaluation mode (`true` = evaluate lemmas). -/
def priorityIdx (pf : PriorityFile) (b : Bool) : Option Nat :=
  if b then pf.lemma_priority_header_index else pf.inflection_priority_header_index

/-- All cells this row is asked for (in the given mode) are in range. -/
def rowCellsOk (pf : PriorityFile) (b : Bool) (row : List String) : Prop :=
  (∃ s, getCell row pf.lemma_header_index = Except.ok s) ∧
  (b = false → ∃ s, getCellOpt row pf.inflection_header_index = Except.ok s) ∧
  (∃ c, getCellOpt row (priorityIdx pf b) = Except.ok c)

/-- A row whose consulted cells are present and whose priority parses. -/
def goodRow (pf : PriorityFile) (b : Bool) (row : List String) : Prop :=
  rowCellsOk pf b row ∧
  ∀ c, getCellOpt row (priorityIdx pf b) = Except.ok c → ∃ v, pythonInt c = some v

/-- A row whose consulted cells are present but whose priority cell does
not parse as an integer. -/
def badPriorityRow (pf : PriorityFile) (b : Bool) (row : List String) : Prop :=
  rowCellsOk pf b row ∧
  ∀ c, getCellOpt row (priorityIdx pf b) = Except.ok c → pythonInt c = none

/-! ## Text highlighter (`highlighting/text_highlighter.py`)

Expressions are `List Char`.  The `Ruby`/`Status` interval classes and
the `prioritysieve_globals` status constants live outside the parsed
sources; their rendering interface is modelled from the spec (open/close
markup strings, `inject`, `open_len`), with the markup content kept
abstract in a `Rendering` parameter. -/

/-- A ruby interval: (start, end, base text, ruby text). -/
structure RubyI where
  start : Nat
  stop : Nat
  base : List Char
  ruby : List Char
deriving DecidableEq, Repr

/-- A status interval: (start, end, learning status, matched text). -/
structure StatusI where
  start : Nat
  stop : Nat
  status : String
  text : List Char
deriving DecidableEq, Repr

/-- Modelled from the spec: the `STATUS_UNDEFINED` constant of
`prioritysieve_globals` (the "undefined" learning classification). -/
def STATUS_UNDEFINED : String := "undefined"

/-- Modelled from the spec: the rendering capability of the interval
classes — opening/closing markup for a status (depending on its learning
status) and for a ruby.  The markup strings themselves are external to the
parsed sources, so they stay abstract. -/
structure Rendering where
  statusOpen : String → List Char
  statusClose : String → List Char
  rubyOpen : RubyI → List Char
  rubyClose : RubyI → List Char

/-- Python `text[a:b]` for `0 ≤ a ≤ b` (clamping at the ends). -/
def pySlice (s : List Char) (a b : Nat) : List Char := (s.drop a).take (b - a)

/-- Modelled from the spec: `Status.inject(text)` splices the status's
markup in at `[start, end)`. -/
def statusInject (rnd : Rendering) (st : StatusI) (text : List Char) : List Char :=
  text.take st.start ++ rnd.statusOpen st.status ++ pySlice text st.start st.stop
    ++ rnd.statusClose st.status ++ text.drop st.stop

/-- Modelled from the spec: `Status.open_len()` is the length of the
opening markup. -/
def statusOpenLen (rnd : Rendering) (st : StatusI) : Nat :=
  (rnd.statusOpen st.status).length

/-- Modelled from the spec: `str(ruby)` for the text ruby type renders the
raw Anki bracket form `base[ruby]`. -/
def rubyRender (r : RubyI) : List Char := r.base ++ '[' :: (r.ruby ++ [']'])

/-- Modelled from the spec: `Ruby.inject(text)` splices the ruby's markup
in at `[start, end)`. -/
def rubyInject (rnd : Rendering) (r : RubyI) (text : List Char) : List Char :=
  text.take r.start ++ rnd.rubyOpen r ++ pySlice text r.start r.stop
    ++ rnd.rubyClose r ++ text.drop r.stop

/-- Python's `\w` (word character) for the character ranges exercised here:
ASCII alphanumerics, underscore, hiragana, katakana and the unified CJK
ideographs (all of which are word characters for Python's `re`). -/
def isWordChar (c : Char) : Bool :=
  c.isAlphanum || c = '_' ||
  (0x3041 ≤ c.toNat && c.toNat ≤ 0x3096) ||
  (0x30A1 ≤ c.toNat && c.toNat ≤ 0x30FA) ||
  (0x4E00 ≤ c.toNat && c.toNat ≤ 0x9FFF)

/-- A match of `ruby_regex = " ?([^] \W]+)\[(.+?)\]"`: match start, the two
groups, and the match end. -/
structure RubyMatch where
  start : Nat
  base : List Char
  ruby : List Char
  stop : Nat
deriving DecidableEq, Repr

/-- The part of `ruby_regex` after the optional space, anchored at
offset `j`: a maximal nonempty run of word characters, a literal `[`, a
lazy nonempty run of non-newline characters, and the closing `]`. -/
def matchCore (s : List Char) (j : Nat) : Option (List Char × List Char) :=
  let t := s.drop j
  let base := t.takeWhile isWordChar
  if base.isEmpty then none
  else
    match t.drop base.length with
    | '[' :: rest =>
        match rest with
        | [] => none
        | c0 :: restTail =>
            let tw := restTail.takeWhile (fun c => c ≠ ']')
            if tw.length = restTail.length then none
            else
              let rubyText := c0 :: tw
              if '\n' ∈ rubyText then none else some (base, rubyText)
    | _ => none

/-- Attempt the full regex (greedy optional leading space first) at
offset `i`. -/
def tryAt (s : List Char) (i : Nat) : Option RubyMatch :=
  if s.get? i = some ' ' then
    match matchCore s (i + 1) with
    | some (b, r) => some ⟨i, b, r, i + 1 + b.length + 1 + r.length + 1⟩
    | none =>
        match matchCore s i with
        | some (b, r) => some ⟨i, b, r, i + b.length + 1 + r.length + 1⟩
        | none => none
  else
    match matchCore s i with
    | some (b, r) => some ⟨i, b, r, i + b.length + 1 + r.length + 1⟩
    | none => none

/-- The scan of `searchFrom`, fuelled so the recursion is structural (the
fuel `s.length + 1` always suffices since `i` increases to `s.length`). -/
def searchFromGo (s : List Char) : Nat → Nat → Option RubyMatch
  | 0, _ => none
  | fuel + 1, i =>
      if i < s.length then
        match tryAt s i with
        | some m => some m
        | none => searchFromGo s fuel (i + 1)
      else none

/-- Search `ruby_regex.search(s, pos=i)`: the leftmost match starting at or after
`i` (a match needs at least one character, so starts `≥ s.length` fail). -/
def searchFrom (s : List Char) (i : Nat) : Option RubyMatch :=
  searchFromGo s (s.length + 1) i

/-- The `_tag_rubies` loop: record each ruby anchored at the base, rewrite
the expression replacing the matched span with just the base, continue
searching past the base.  Each iteration strictly advances, so `fuel`
`= length + 1` is never exhausted; the fuel only makes the recursion
structural. -/
def tag_rubies_go : Nat → List Char → Nat → List RubyI → List Char × List RubyI
  | 0, e, _, acc => (e, acc)
  | fuel + 1, e, pos, acc =>
      match searchFrom e pos with
      | none => (e, acc)
      | some m =>
          let stop := m.start + m.base.length
          tag_rubies_go fuel (e.take m.start ++ m.base ++ e.drop m.stop) stop
            (acc ++ [⟨m.start, stop, m.base, m.ruby⟩])

/-- Source `_tag_rubies`: the rewritten expression and the discovered rubies in
left-to-right order. -/
def tag_rubies (e : List Char) : List Char × List RubyI :=
  tag_rubies_go (e.length + 1) e 0 []

/-- Modelled from the spec: a morpheme object as the highlighter consumes
it — an inflection string together with its (externally computed) learning
status. -/
structure Morpheme where
  inflection : List Char
  learningStatus : String

/-- Python `expression.find(sub)`: index of the first occurrence. -/
def pyFind : List Char → List Char → Option Nat
  | s, sub =>
      if sub.isPrefixOf s then some 0
      else
        match s with
        | [] => none
        | _ :: rest => (pyFind rest sub).map (· + 1)

/-- Blanking `expression[:start] + " " * (end - start) + expression[end:]`. -/
def blankRange (s : List Char) (a b : Nat) : List Char :=
  s.take a ++ List.replicate (b - a) ' ' ++ s.drop b

/-- The inner `while True` of `_tag_morphemes` for one morpheme: find the
next occurrence, record a status, blank the span.  Runs on fuel; `none`
means the fuel (chosen by the caller) was exhausted before the find
failed. -/
def tag_morph_occurrences (m : Morpheme) :
    Nat → List Char → List StatusI → Option (List Char × List StatusI)
  | 0, _, _ => none
  | fuel + 1, e, acc =>
      match pyFind e m.inflection with
      | none => some (e, acc)
      | some start =>
          let stop := start + m.inflection.length
          tag_morph_occurrences m fuel (blankRange e start stop)
            (acc ++ [⟨start, stop, m.learningStatus, m.inflection⟩])

/-- The morpheme loop of `_tag_morphemes` (morphemes already sorted by
inflection length, longest first). -/
def tag_morphemes_go (fuel : Nat) :
    List Morpheme → List Char → List StatusI → Option (List StatusI)
  | [], _, acc => some acc
  | m :: rest, e, acc =>
      match tag_morph_occurrences m fuel e acc with
      | none => none
      | some (e', acc') => tag_morphemes_go fuel rest e' acc'

/-- Source `_tag_morphemes`: sort morphemes by inflection length descending
(Python's stable sort), discover and blank occurrences, then sort the
statuses ascending by start offset.  The fuel `length + 2` suffices for
every terminating run (each successful find blanks at least one non-space
character when the pattern is not all spaces). -/
def tag_morphemes (expr : List Char) (morphs : List Morpheme) :
    Option (List StatusI) :=
  (tag_morphemes_go (expr.length + 2)
      (List.insertionSort
        (fun m1 m2 => m2.inflection.length ≤ m1.inflection.length) morphs)
      expr []).map
    (fun sts => List.insertionSort (fun a b => a.start ≤ b.start) sts)

/-- The state of the `_process` sweep: the working string, the two deques
(stored rightmost-first, so Python's `pop()` from the right end is the
head), and the two current-candidate slots. -/
structure ProcState where
  text : List Char
  rubies : List RubyI
  statuses : List StatusI
  ruby : Option RubyI
  status : Option StatusI

/-- The inner pull loop of scenario 5/6: keep popping rubies that still
start inside the spliced status, shift them by the opening-markup length,
and inject them directly. -/
def pullRubies (rnd : Rendering) (st : StatusI) :
    List RubyI → List Char → List Char × List RubyI
  | [], text => (text, [])
  | r :: rs, text =>
      if r.stop ≤ st.start then (text, r :: rs)
      else
        let r' : RubyI :=
          { r with start := r.start + statusOpenLen rnd st,
                   stop := r.stop + statusOpenLen rnd st }
        pullRubies rnd st rs (rubyInject rnd r' text)

/-- The inner pop loop of scenario 7/8: discard statuses still ending
inside the spliced ruby. -/
def dropStatuses (r : RubyI) : List StatusI → List StatusI
  | [] => []
  | s :: ss => if s.stop ≤ r.start then s :: ss else dropStatuses r ss

/-- One-to-one translation of the `while` loop of `_process`, running on
fuel (`none` = fuel exhausted before the loop finished). -/
def processLoop (rnd : Rendering) : Nat → ProcState → Option (List Char)
  | 0, _ => none
  | fuel + 1, st =>
      let rR : Option RubyI × List RubyI :=
        match st.ruby, st.rubies with
        | some r, R => (some r, R)
        | none, [] => (none, [])
        | none, x :: xs => (some x, xs)
      let sS : Option StatusI × List StatusI :=
        match st.status, st.statuses with
        | some s, S => (some s, S)
        | none, [] => (none, [])
        | none, x :: xs => (some x, xs)
      match rR, sS with
      | (none, _), (none, _) => some st.text
      | (none, R), (some s0, S) =>
          processLoop rnd fuel ⟨statusInject rnd s0 st.text, R, S, none, none⟩
      | (some r0, R), (none, S) =>
          processLoop rnd fuel ⟨st.text, R, S, some r0,
            some ⟨r0.start, r0.stop, STATUS_UNDEFINED,
              pySlice st.text r0.start r0.stop⟩⟩
      | (some r0, R), (some s0, S) =>
          if r0.stop ≤ s0.start ∨ r0.start ≥ s0.stop then
            if r0.start > s0.start then
              let temp : StatusI := ⟨r0.start, r0.stop, STATUS_UNDEFINED,
                pySlice st.text r0.start r0.stop⟩
              processLoop rnd fuel ⟨
                st.text.take temp.start ++ rnd.statusOpen temp.status
                  ++ pySlice st.text temp.start
                      (temp.start + r0.start - temp.start)
                  ++ rubyRender r0
                  ++ pySlice st.text r0.stop temp.stop
                  ++ rnd.statusClose temp.status
                  ++ st.text.drop temp.stop,
                R, S, none, some s0⟩
            else
              processLoop rnd fuel
                ⟨statusInject rnd s0 st.text, R, S, some r0, none⟩
          else if r0.start ≥ s0.start ∧ r0.stop ≤ s0.stop then
            let text1 := st.text.take s0.start ++ rnd.statusOpen s0.status
              ++ pySlice st.text s0.start (s0.start + r0.start - s0.start)
              ++ rubyRender r0
              ++ pySlice st.text r0.stop s0.stop
              ++ rnd.statusClose s0.status
              ++ st.text.drop s0.stop
            let tR : List Char × List RubyI := pullRubies rnd s0 R text1
            processLoop rnd fuel ⟨tR.1, tR.2, S, none, none⟩
          else if r0.start ≤ s0.start then
            let s1 : StatusI := { s0 with status := STATUS_UNDEFINED }
            processLoop rnd fuel ⟨
              st.text.take r0.start ++ rnd.statusOpen s1.status
                ++ rubyRender r0
                ++ pySlice st.text r0.stop s1.stop
                ++ rnd.statusClose s1.status
                ++ st.text.drop s1.stop,
              R, dropStatuses r0 S, none, none⟩
          else
            processLoop rnd fuel ⟨st.text, R, S, none, none⟩

/-- ASCII case folding, the part of Python's `str.lower()` relevant here
(identity on the CJK/kana ranges used by the claims). -/
def pyLower (c : Char) : Char := c.toLower

/-- Source `TextHighlighter.__init__` followed by `highlighted()`: tag rubies,
tag morphemes on the lowercased stripped expression, then run the sweep
(when the expression is non-empty and something was found).  `none` only
when a fuel bound was exhausted, i.e. the corresponding Python loop had
not yet terminated. -/
def highlighted (rnd : Rendering) (expression : List Char)
    (morphemes : List Morpheme) : Option (List Char) :=
  let eR := tag_rubies expression
  match tag_morphemes (eR.1.map pyLower) morphemes with
  | none => none
  | some statuses =>
      if eR.1 ≠ [] ∧ (eR.2 ≠ [] ∨ statuses ≠ []) then
        processLoop rnd (2 * (eR.2.length + statuses.length) + 4)
          ⟨eR.1, eR.2.reverse, statuses.reverse, none, none⟩
      else some eR.1

def trivialRendering : Rendering :=
  ⟨fun _ => [], fun _ => [], fun _ => [], fun _ => []⟩

def ProcessTerminates (rnd : Rendering) (st : ProcState) : Prop :=
  ∃ fuel, (processLoop rnd fuel st).isSome

def cMeasure (st : ProcState) : Nat :=
  st.rubies.length + st.statuses.length +
  (match st.ruby with | some _ => 1 | none => 0) +
  (match st.status with | some _ => 1 | none => 0)

def statusDisjoint (a b : StatusI) : Prop := a.stop ≤ b.start ∨ b.stop ≤ a.start

instance (a b : StatusI) : Decidable (statusDisjoint a b) := by
  unfold statusDisjoint; infer_instance

def nth : List Char → Nat → Option Char
  | [], _ => none
  | c :: _, 0 => some c
  | _ :: l, n + 1 => nth l n

/-- The discovery invariant: every recorded interval is a nonempty span
whose characters have been blanked to spaces in the current scratch
expression. -/
def spacesAt (e : List Char) (st : StatusI) : Prop :=
  st.start < st.stop ∧ st.stop ≤ e.length ∧
  ∀ p, st.start ≤ p → p < st.stop → nth e p = some ' '

theorem optMin_assoc (a b c : Option Int) :
    optMin (optMin a b) c = optMin a (optMin b c) := by
  cases a <;> cases b <;> cases c <;> simp [optMin, min_assoc]

theorem optMin_comm (a b : Option Int) : optMin a b = optMin b a := by
  cases a <;> cases b <;> simp [optMin, min_comm]

theorem pget_map_update (d : PDict) (k : PKey) (v : Int) (k' : PKey) (h : ¬ k' = k) :
    pget (d.map (fun p => if p.1 = k then (k, v) else p)) k' = pget d k' := by
  induction d with
  | nil => simp [pget]
  | cons p d ih =>
      by_cases hpk : p.1 = k
      · have : ¬ k = k' := fun hh => h hh.symm
        simp [pget, hpk, this, ih]
      · by_cases hpk' : p.1 = k'
        · simp [pget, hpk, hpk', h]
        · simp [pget, hpk, hpk', h, ih]

theorem pget_map_update_self (d : PDict) (k : PKey) (v : Int)
    (hmem : pget d k ≠ none) :
    pget (d.map (fun p => if p.1 = k then (k, v) else p)) k = some v := by
  induction d with
  | nil => simp [pget] at hmem
  | cons p d ih =>
      by_cases hpk : p.1 = k
      · simp [pget, hpk]
      · simp only [pget, hpk, if_false] at hmem
        simp [pget, hpk, ih hmem]

theorem pget_append_single (d : PDict) (k : PKey) (v : Int) (k' : PKey) :
    pget (d ++ [(k, v)]) k' =
      match pget d k' with
      | some e => some e
      | none => if k = k' then some v else none := by
  induction d with
  | nil => simp [pget]
  | cons p d ih =>
      by_cases hpk : p.1 = k'
      · simp [pget, hpk]
      · simp [pget, hpk, ih]

theorem pget_assign (d : PDict) (k : PKey) (v : Int) (k' : PKey) :
    pget (assign_priority_if_lower d k v) k' =
      if k' = k then
        some (match pget d k with | none => v | some e => min e v)
      else pget d k' := by
  unfold assign_priority_if_lower
  cases hg : pget d k with
  | none =>
      rw [pget_append_single]
      by_cases h : k' = k
      · subst h; simp [hg]
      · have : ¬ k = k' := fun hh => h hh.symm
        cases hk' : pget d k' <;> simp [h, this]
  | some e =>
      by_cases hv : v < e
      · simp only [if_pos hv]
        by_cases h : k' = k
        · subst h
          rw [pget_map_update_self d k' v (by simp [hg])]
          simp [min_eq_right (le_of_lt hv)]
        · simp [pget_map_update d k v k' h, h]
      · simp only [if_neg hv]
        by_cases h : k' = k
        · subst h
          simp [hg, min_eq_left (le_of_not_gt hv)]
        · simp [h]

theorem pget_merge (t : PDict) (s : PDict) (k : PKey) :
    pget (merge_priorities t s) k = optMin (pget t k) (minVals s k) := by
  induction s generalizing t with
  | nil => cases h : pget t k <;> simp [merge_priorities, minVals, optMin, h]
  | cons p s ih =>
      have step : merge_priorities t (p :: s) =
          merge_priorities (assign_priority_if_lower t p.1 p.2) s := rfl
      rw [step, ih, pget_assign]
      by_cases h : k = p.1
      · have h' : p.1 = k := h.symm
        cases hg : pget t k with
        | none =>
            simp only [if_pos h, h ▸ hg]
            simp [minVals, h', optMin_assoc, optMin, hg]
        | some e =>
            simp only [if_pos h, h ▸ hg]
            rw [show minVals (p :: s) k = optMin (some p.2) (minVals s k) from by
                  simp [minVals, h'],
                ← optMin_assoc]
            simp [optMin]
      · have h' : ¬ p.1 = k := fun hh => h hh.symm
        simp [h, minVals, h']

theorem foldr_optMin_eq_intListMin (l : List (Option Int)) :
    l.foldr optMin none = intListMin (l.filterMap id) := by
  induction l with
  | nil => rfl
  | cons o l ih =>
      cases o with
      | none => simpa [optMin] using ih
      | some v =>
          simp only [List.foldr_cons, ih, List.filterMap_cons]
          cases h : intListMin (l.filterMap id) <;> simp [optMin, intListMin, h]

theorem pget_merge_all_aux (sources : List PDict) (t : PDict) (k : PKey) :
    pget (sources.foldl merge_priorities t) k =
      optMin (pget t k) ((sources.map (fun s => minVals s k)).foldr optMin none) := by
  induction sources generalizing t with
  | nil => cases h : pget t k <;> simp [optMin, h]
  | cons s ss ih =>
      simp only [List.foldl_cons, List.map_cons, List.foldr_cons]
      rw [ih, pget_merge, optMin_assoc]

theorem minVals_eq_none (s : PDict) (k : PKey) (h : ∀ p ∈ s, p.1 ≠ k) :
    minVals s k = none := by
  induction s with
  | nil => rfl
  | cons p s ih =>
      have hp : p.1 ≠ k := h p (List.mem_cons_self p s)
      simp only [minVals, List.foldr_cons, if_neg hp]
      exact ih (fun q hq => h q (List.mem_cons_of_mem p hq))

theorem minVals_eq_pget (s : PDict) (k : PKey) (h : (s.map Prod.fst).Nodup) :
    minVals s k = pget s k := by
  induction s with
  | nil => rfl
  | cons p s ih =>
      simp only [List.map_cons, List.nodup_cons] at h
      by_cases hp : p.1 = k
      · have : minVals s k = none := by
          apply minVals_eq_none
          intro q hq hqk
          exact h.1 (hp ▸ hqk ▸ List.mem_map_of_mem Prod.fst hq)
        have h1 : minVals (p :: s) k = optMin (some p.2) (minVals s k) := by
          simp [minVals, hp]
        rw [h1, this]
        simp [pget, hp, optMin]
      · simp only [minVals, List.foldr_cons, if_neg hp, pget, hp, if_false]
        exact ih h.2

theorem filterMap_congr_minVals (sources : List PDict) (k : PKey)
    (h : ∀ s ∈ sources, (s.map Prod.fst).Nodup) :
    sources.filterMap (fun s => minVals s k) =
      sources.filterMap (fun s => pget s k) := by
  induction sources with
  | nil => rfl
  | cons s ss ih =>
      have h1 := minVals_eq_pget s k (h s (List.mem_cons_self s ss))
      have h2 := ih (fun q hq => h q (List.mem_cons_of_mem s hq))
      simp [List.filterMap_cons, h1, h2]

/-- C1: for sources that are genuine mappings (no duplicate keys inside a
source), the value merged for any key is the minimum of the values assigned
by the sources containing that key; a key contained in no source is absent
(`pget` yields `none` exactly when the filterMap list is empty). -/
theorem merged_value_is_min_over_sources
    (sources : List PDict) (h : ∀ s ∈ sources, (s.map Prod.fst).Nodup) (k : PKey) :
    pget (merge_all sources) k =
      intListMin (sources.filterMap (fun s => pget s k)) := by
  have := pget_merge_all_aux sources [] k
  simp only [merge_all, this, pget, optMin]
  rw [show (sources.map (fun s => minVals s k)).foldr optMin none =
        intListMin ((sources.map (fun s => minVals s k)).filterMap id) from
      foldr_optMin_eq_intListMin _]
  rw [List.filterMap_map]
  rw [show (sources.filterMap (id ∘ fun s => minVals s k)) =
        sources.filterMap (fun s => minVals s k) from rfl]
  rw [filterMap_congr_minVals sources k h]

/-- Witness for C1 at concrete sources. -/
theorem merged_value_is_min_over_sources_witness :
    pget (merge_all [[(("a", "a", ""), (5 : Int))],
                     [(("a", "a", ""), (3 : Int)), (("x", "x", ""), (7 : Int))]])
        ("a", "a", "") =
      intListMin
        ([[(("a", "a", ""), (5 : Int))],
          [(("a", "a", ""), (3 : Int)), (("x", "x", ""), (7 : Int))]].filterMap
          (fun s => pget s ("a", "a", ""))) :=
  merged_value_is_min_over_sources _ (by decide) _

/-- C2: merging A then B into an empty mapping agrees, as a mapping, with
merging B then A (Python dict equality is key-value equality, i.e. pointwise
`pget` equality). -/
theorem merge_order_independent (A B : PDict) (k : PKey) :
    pget (merge_priorities (merge_priorities [] A) B) k =
      pget (merge_priorities (merge_priorities [] B) A) k := by
  rw [pget_merge, pget_merge, pget_merge, pget_merge]
  simp only [show pget [] k = none from rfl]
  cases hA : minVals A k <;> cases hB : minVals B k <;> simp [optMin, min_comm]

theorem splitPipe_ne_nil (s : List Char) : splitPipe s ≠ [] := by
  cases s with
  | nil => simp [splitPipe]
  | cons c rest =>
      by_cases h : c = '|'
      · simp [splitPipe, h]
      · simp only [splitPipe, if_neg h]
        cases splitPipe rest <;> simp

theorem splitPipe_append_pipe (a t : List Char) (h : '|' ∉ a) :
    splitPipe (a ++ '|' :: t) = a :: splitPipe t := by
  induction a with
  | nil => simp [splitPipe]
  | cons c a ih =>
      have hc : ¬ c = '|' := fun hh => h (hh ▸ List.mem_cons_self c a)
      have ha : '|' ∉ a := fun hh => h (List.mem_cons_of_mem c hh)
      simp only [List.cons_append, splitPipe, if_neg hc]
      rw [show splitPipe (a.append ('|' :: t)) = a :: splitPipe t from ih ha]

theorem splitPipe_noPipe (c : List Char) (h : '|' ∉ c) : splitPipe c = [c] := by
  induction c with
  | nil => rfl
  | cons x c ih =>
      have hx : ¬ x = '|' := fun hh => h (hh ▸ List.mem_cons_self x c)
      have hc : '|' ∉ c := fun hh => h (List.mem_cons_of_mem x hh)
      simp [splitPipe, hx, ih hc]

theorem splitPipe_joinKey (a b c : List Char)
    (ha : '|' ∉ a) (hb : '|' ∉ b) (hc : '|' ∉ c) :
    splitPipe (joinKey a b c) = [a, b, c] := by
  unfold joinKey
  rw [splitPipe_append_pipe a _ ha, splitPipe_append_pipe b _ hb,
    splitPipe_noPipe c hc]

theorem joinKey_inj (a b c a' b' c' : List Char)
    (ha : '|' ∉ a) (hb : '|' ∉ b) (hc : '|' ∉ c)
    (ha' : '|' ∉ a') (hb' : '|' ∉ b') (hc' : '|' ∉ c')
    (h : joinKey a b c = joinKey a' b' c') : a = a' ∧ b = b' ∧ c = c' := by
  have h2 : ([a, b, c] : List (List Char)) = [a', b', c'] := by
    rw [← splitPipe_joinKey a b c ha hb hc, h,
      splitPipe_joinKey a' b' c' ha' hb' hc']
  simp only [List.cons.injEq, and_true] at h2
  exact ⟨h2.1, h2.2.1, h2.2.2⟩

theorem alookup_eq_none {K : Type} [DecidableEq K] (d : List (K × Int)) (k : K)
    (h : k ∉ d.map Prod.fst) : alookup d k = none := by
  induction d with
  | nil => rfl
  | cons p d ih =>
      simp only [List.map_cons, List.mem_cons, not_or] at h
      have : ¬ p.1 = k := fun hh => h.1 hh.symm
      simp [alookup, this, ih h.2]

theorem dictOfItems_aux {K : Type} [DecidableEq K] (l d : List (K × Int))
    (h : (d.map Prod.fst ++ l.map Prod.fst).Nodup) :
    l.foldl (fun d p => ainsert d p.1 p.2) d = d ++ l := by
  induction l generalizing d with
  | nil => simp
  | cons p l ih =>
      have hk : p.1 ∉ d.map Prod.fst := by
        intro hmem
        have := (List.nodup_append.mp h).2.2
        exact this hmem (by simp)
      have step : ainsert d p.1 p.2 = d ++ [(p.1, p.2)] := by
        simp [ainsert, alookup_eq_none d p.1 hk]
      simp only [List.foldl_cons, step]
      rw [ih (d ++ [(p.1, p.2)])
          (by simpa [List.append_assoc] using h)]
      simp

theorem dictOfItems_eq_self {K : Type} [DecidableEq K] (l : List (K × Int))
    (h : (l.map Prod.fst).Nodup) : dictOfItems l = l := by
  simpa using dictOfItems_aux l [] (by simpa using h)

/-- C3 counterexample: a key component containing the delimiter breaks the
round-trip — `("a|b", "c", "d")` serializes to `"a|b|c|d"`, which loads as
the 4-tuple `("a","b","c","d")`. -/
theorem serialization_roundtrip_counterexample :
    load_dict_from_json_file
        (save_to_json_file [(("a|b".toList, "c".toList, "d".toList), 1)]) ≠
      [(("a|b".toList, "c".toList, "d".toList), 1)].map
        (fun p => (tripleAsParts p.1, p.2)) := by
  decide

/-- C3 amended: for a mapping whose (lemma, inflection, reading) components
are free of the delimiter `|`, serialize-then-deserialize returns the same
mapping (keys read back as 3-part tuples); and a serialized legacy 2-part
key loads as the 3-part key with empty reading. -/
theorem serialization_roundtrip
    (m : List ((List Char × List Char × List Char) × Int))
    (hnp : ∀ p ∈ m, '|' ∉ p.1.1 ∧ '|' ∉ p.1.2.1 ∧ '|' ∉ p.1.2.2)
    (hnd : (m.map Prod.fst).Nodup) :
    load_dict_from_json_file (save_to_json_file m) =
      m.map (fun p => (tripleAsParts p.1, p.2)) ∧
    ∀ a b : List Char, ∀ v : Int, '|' ∉ a → '|' ∉ b →
      load_dict_from_json_file [(a ++ '|' :: b, v)] = [([a, b, []], v)] := by
  constructor
  · have hsave : save_to_json_file m =
        m.map (fun p => (joinKey p.1.1 p.1.2.1 p.1.2.2, p.2)) := by
      apply dictOfItems_eq_self
      rw [List.map_map]
      rw [show m.map (Prod.fst ∘ fun p => (joinKey p.1.1 p.1.2.1 p.1.2.2, p.2)) =
            (m.map Prod.fst).map (fun k => joinKey k.1 k.2.1 k.2.2) from by
          rw [List.map_map]; rfl]
      apply List.Nodup.map_on _ hnd
      intro x hx y hy hxy
      simp only [List.mem_map] at hx hy
      obtain ⟨px, hpx, hb⟩ := hx
      obtain ⟨py, hpy, hb'⟩ := hy
      have hxp : '|' ∉ x.1 ∧ '|' ∉ x.2.1 ∧ '|' ∉ x.2.2 := hb ▸ hnp px hpx
      have hyp : '|' ∉ y.1 ∧ '|' ∉ y.2.1 ∧ '|' ∉ y.2.2 := hb' ▸ hnp py hpy
      obtain ⟨h1, h2, h3⟩ :=
        joinKey_inj _ _ _ _ _ _ hxp.1 hxp.2.1 hxp.2.2 hyp.1 hyp.2.1 hyp.2.2 hxy
      obtain ⟨a, b, c⟩ := x
      obtain ⟨a', b', c'⟩ := y
      simp_all
    rw [hsave]
    unfold load_dict_from_json_file
    rw [List.map_map]
    have hmap : m.map ((fun p => (upgradeKey (splitPipe p.1), p.2)) ∘
        (fun p => (joinKey p.1.1 p.1.2.1 p.1.2.2, p.2))) =
        m.map (fun p => (tripleAsParts p.1, p.2)) := by
      apply List.map_congr_left
      intro p hp
      obtain ⟨hpa, hpb, hpc⟩ := hnp p hp
      simp [Function.comp, splitPipe_joinKey _ _ _ hpa hpb hpc, upgradeKey,
        tripleAsParts]
    rw [hmap]
    apply dictOfItems_eq_self
    rw [List.map_map]
    rw [show m.map (Prod.fst ∘ fun p => (tripleAsParts p.1, p.2)) =
          (m.map Prod.fst).map tripleAsParts from by rw [List.map_map]; rfl]
    apply List.Nodup.map_on _ hnd
    intro x _ y _ hxy
    obtain ⟨a, b, c⟩ := x
    obtain ⟨a', b', c'⟩ := y
    simpa [tripleAsParts] using hxy
  · intro a b v hna hnb
    unfold load_dict_from_json_file
    simp only [List.map_cons, List.map_nil]
    rw [show splitPipe (a ++ '|' :: b) = [a, b] from by
        rw [splitPipe_append_pipe a _ hna, splitPipe_noPipe b hnb]]
    simp [upgradeKey, dictOfItems, ainsert, alookup]

/-- C6: a Minimal-format file parsed in evaluate-by-inflection mode always
raises the malformed exception, whatever the declared type and rows. -/
theorem minimal_format_inflection_mode_malformed (penalty : Nat)
    (normalize : String → String) (pf : PriorityFile)
    (hfmt : pf.format = PFFormat.Minimal) (rows : List (List String)) :
    get_morph_priorities_from_file penalty normalize pf false rows =
      Except.error (ParseErr.malformed
        "Priority files or study plans without inflections are incompatible with the \x27evaluate inflections\x27 option.") := by
  simp [get_morph_priorities_from_file, hfmt]

/-- Witness for C6: a concrete minimal study plan with rows. -/
theorem minimal_format_inflection_mode_malformed_witness :
    get_morph_priorities_from_file 50000 (fun s => s)
        { type := PFType.StudyPlan, format := PFFormat.Minimal,
          lemma_header_index := 0 } false [["a"], ["b"]] =
      Except.error (ParseErr.malformed
        "Priority files or study plans without inflections are incompatible with the \x27evaluate inflections\x27 option.") :=
  minimal_format_inflection_mode_malformed 50000 (fun s => s) _ rfl _

/-- C7: a Full-format StudyPlan parsed in evaluate-by-lemma mode always
raises the malformed exception, whatever the rows. -/
theorem full_study_plan_lemma_mode_malformed (penalty : Nat)
    (normalize : String → String) (pf : PriorityFile)
    (hfmt : pf.format = PFFormat.Full) (htype : pf.type = PFType.StudyPlan)
    (rows : List (List String)) :
    get_morph_priorities_from_file penalty normalize pf true rows =
      Except.error (ParseErr.malformed
        "Study plans containing inflections are incompatible with the \x27evaluate lemmas\x27 option.") := by
  simp [get_morph_priorities_from_file, hfmt, htype]

/-- Witness for C7: a concrete full study plan with rows. -/
theorem full_study_plan_lemma_mode_malformed_witness :
    get_morph_priorities_from_file 50000 (fun s => s)
        { type := PFType.StudyPlan, format := PFFormat.Full,
          lemma_header_index := 0, inflection_header_index := some 1 } true
        [["a", "b"]] =
      Except.error (ParseErr.malformed
        "Study plans containing inflections are incompatible with the \x27evaluate lemmas\x27 option.") :=
  full_study_plan_lemma_mode_malformed 50000 (fun s => s) _ rfl rfl _

theorem populate_inflections_bad_int (penalty : Nat) (normalize : String → String)
    (pf : PriorityFile) :
    ∀ (i : Nat) (rows : List (List String)) (idx : Nat) (d : PDict),
      idx + i ≤ penalty →
      (∀ j row, j < i → rows.get? j = some row → goodRow pf false row) →
      (∀ row, rows.get? i = some row → badPriorityRow pf false row) →
      (rows.get? i).isSome →
      ∃ c, populate_full_priority_file_inflections penalty normalize pf idx rows d =
          Except.error (ParseErr.valueError c) ∧ pythonInt c = none := by
  intro i
  induction i with
  | zero =>
      intro rows idx d hcut _ hbad hsome
      cases rows with
      | nil => simp at hsome
      | cons row rest =>
          obtain ⟨⟨⟨ls, hls⟩, hinf, ⟨c, hc⟩⟩, hbadc⟩ := hbad row rfl
          obtain ⟨is, his⟩ := hinf rfl
          have hnb : ¬ idx > penalty := by omega
          refine ⟨c, ?_, hbadc c hc⟩
          simp only [populate_full_priority_file_inflections, if_neg hnb]
          rw [show getCellOpt row pf.inflection_priority_header_index =
              getCellOpt row (priorityIdx pf false) from rfl] at *
          simp [bind, Except.bind, hls, his, hc, parseIntCell, hbadc c hc]
  | succ i ih =>
      intro rows idx d hcut hgood hbad hsome
      cases rows with
      | nil => simp at hsome
      | cons row rest =>
          obtain ⟨⟨⟨ls, hls⟩, hinf, ⟨c, hc⟩⟩, hgoodc⟩ := hgood 0 row (by omega) rfl
          obtain ⟨is, his⟩ := hinf rfl
          obtain ⟨v, hv⟩ := hgoodc c hc
          have hnb : ¬ idx > penalty := by omega
          have := ih rest (idx + 1)
            (assign_priority_if_lower d (ls, is,
              get_row_reading normalize row pf) v)
            (by omega)
            (fun j r hj hr => hgood (j + 1) r (by omega) hr)
            (fun r hr => hbad r hr)
            hsome
          obtain ⟨c', hrun, hnone⟩ := this
          refine ⟨c', ?_, hnone⟩
          simp only [populate_full_priority_file_inflections, if_neg hnb]
          rw [show getCellOpt row pf.inflection_priority_header_index =
              getCellOpt row (priorityIdx pf false) from rfl]
          simp [bind, Except.bind, hls, his, hc, parseIntCell, hv, hrun]

theorem populate_lemmas_bad_int (penalty : Nat) (normalize : String → String)
    (pf : PriorityFile) :
    ∀ (i : Nat) (rows : List (List String)) (idx : Nat) (d : PDict),
      idx + i ≤ penalty →
      (∀ j row, j < i → rows.get? j = some row → goodRow pf true row) →
      (∀ row, rows.get? i = some row → badPriorityRow pf true row) →
      (rows.get? i).isSome →
      ∃ c, populate_full_priority_file_lemmas penalty normalize pf idx rows d =
          Except.error (ParseErr.valueError c) ∧ pythonInt c = none := by
  intro i
  induction i with
  | zero =>
      intro rows idx d hcut _ hbad hsome
      cases rows with
      | nil => simp at hsome
      | cons row rest =>
          obtain ⟨⟨⟨ls, hls⟩, _, ⟨c, hc⟩⟩, hbadc⟩ := hbad row rfl
          have hnb : ¬ idx > penalty := by omega
          refine ⟨c, ?_, hbadc c hc⟩
          simp only [populate_full_priority_file_lemmas, if_neg hnb]
          rw [show getCellOpt row pf.lemma_priority_header_index =
              getCellOpt row (priorityIdx pf true) from rfl]
          simp [bind, Except.bind, hls, hc, parseIntCell, hbadc c hc]
  | succ i ih =>
      intro rows idx d hcut hgood hbad hsome
      cases rows with
      | nil => simp at hsome
      | cons row rest =>
          obtain ⟨⟨⟨ls, hls⟩, _, ⟨c, hc⟩⟩, hgoodc⟩ := hgood 0 row (by omega) rfl
          obtain ⟨v, hv⟩ := hgoodc c hc
          have hnb : ¬ idx > penalty := by omega
          have := ih rest (idx + 1)
            (assign_priority_if_lower d (ls, ls,
              get_row_reading normalize row pf) v)
            (by omega)
            (fun j r hj hr => hgood (j + 1) r (by omega) hr)
            (fun r hr => hbad r hr)
            hsome
          obtain ⟨c', hrun, hnone⟩ := this
          refine ⟨c', ?_, hnone⟩
          simp only [populate_full_priority_file_lemmas, if_neg hnb]
          rw [show getCellOpt row pf.lemma_priority_header_index =
              getCellOpt row (priorityIdx pf true) from rfl]
          simp [bind, Except.bind, hls, hc, parseIntCell, hv, hrun]

/-- C8: for a full-format priority file whose first offending row (within
the cutoff) has its consulted cells present but a priority cell that does
not parse as an integer, row extraction fails with the `int(...)` parse
error carrying that kind of cell, propagated unswallowed through
`_get_morph_priorities_from_file`. -/
theorem full_priority_file_bad_int_propagates (penalty : Nat)
    (normalize : String → String) (pf : PriorityFile) (b : Bool)
    (rows : List (List String)) (i : Nat)
    (htype : pf.type = PFType.PriorityFile) (hfmt : pf.format = PFFormat.Full)
    (hcut : i ≤ penalty)
    (hgood : ∀ j row, j < i → rows.get? j = some row → goodRow pf b row)
    (hbad : ∀ row, rows.get? i = some row → badPriorityRow pf b row)
    (hsome : (rows.get? i).isSome) :
    ∃ c, get_morph_priorities_from_file penalty normalize pf b rows =
        Except.error (ParseErr.valueError c) ∧ pythonInt c = none := by
  cases b with
  | false =>
      have h := populate_inflections_bad_int penalty normalize pf i rows 0 []
        (by omega) hgood hbad hsome
      simpa [get_morph_priorities_from_file, hfmt, htype] using h
  | true =>
      have h := populate_lemmas_bad_int penalty normalize pf i rows 0 []
        (by omega) hgood hbad hsome
      have hnsp : pf.type ≠ PFType.StudyPlan := by simp [htype]
      simpa [get_morph_priorities_from_file, hfmt, htype, hnsp] using h

/-- Witness for C8: a concrete full priority file whose first row's
inflection-priority cell is `"x"`. -/
theorem full_priority_file_bad_int_propagates_witness :
    ∃ c, get_morph_priorities_from_file 50000 (fun s => s)
        { type := PFType.PriorityFile, format := PFFormat.Full,
          lemma_header_index := 0, inflection_header_index := some 1,
          lemma_priority_header_index := some 2,
          inflection_priority_header_index := some 3 } false
        [["come", "comes", "5", "x"]] =
      Except.error (ParseErr.valueError c) ∧ pythonInt c = none := by
  apply full_priority_file_bad_int_propagates 50000 (fun s => s) _ false
      [["come", "comes", "5", "x"]] 0 rfl rfl (by omega)
      (fun j row hj => by omega)
  · intro row hrow
    cases hrow
    refine ⟨⟨⟨"come", rfl⟩, fun _ => ⟨"comes", rfl⟩, ⟨"x", rfl⟩⟩, ?_⟩
    intro c hc
    have : c = "x" := by
      have := hc
      simp only [priorityIdx, getCellOpt, getCell, if_false] at this
      exact (Except.ok.inj this).symm
    rw [this]
    decide
  · rfl

theorem populate_study_plan_take (penalty : Nat) (normalize : String → String)
    (pf : PriorityFile) :
    ∀ (rows : List (List String)) (idx : Nat) (d : PDict),
      populate_full_study_plan penalty normalize pf idx rows d =
        populate_full_study_plan penalty normalize pf idx
          (rows.take (penalty + 1 - idx)) d := by
  intro rows
  induction rows with
  | nil => intro idx d; simp
  | cons row rest ih =>
      intro idx d
      by_cases hb : idx > penalty
      · have h0 : penalty + 1 - idx = 0 := by omega
        simp [populate_full_study_plan, hb, h0]
      · have h1 : penalty + 1 - idx = (penalty + 1 - (idx + 1)) + 1 := by omega
        rw [h1, List.take_succ_cons]
        simp only [populate_full_study_plan, if_neg hb]
        cases hls : getCell row pf.lemma_header_index with
        | error e => simp [bind, Except.bind, hls]
        | ok ls =>
            cases his : getCellOpt row pf.inflection_header_index with
            | error e => simp [bind, Except.bind, hls, his]
            | ok is => simp [bind, Except.bind, hls, his, ih]

theorem values_le_assign (d : PDict) (P : Int) (k0 : PKey) (v0 : Int)
    (hd : ∀ k v, pget d k = some v → v ≤ P) (hv0 : v0 ≤ P) :
    ∀ k v, pget (assign_priority_if_lower d k0 v0) k = some v → v ≤ P := by
  intro k v h
  rw [pget_assign] at h
  by_cases hk : k = k0
  · rw [if_pos hk] at h
    cases hg : pget d k0 with
    | none => simp [hg] at h; omega
    | some e =>
        simp only [hg] at h
        have he := hd k0 e hg
        have : v = min e v0 := by injection h with h'; exact h'.symm
        have : v ≤ v0 := this ▸ min_le_right e v0
        omega
  · rw [if_neg hk] at h
    exact hd k v h

theorem populate_study_plan_values_le (penalty : Nat)
    (normalize : String → String) (pf : PriorityFile) :
    ∀ (rows : List (List String)) (idx : Nat) (d : PDict),
      (∀ k v, pget d k = some v → v ≤ (penalty : Int)) →
      ∀ res, populate_full_study_plan penalty normalize pf idx rows d =
          Except.ok res →
        ∀ k v, pget res k = some v → v ≤ (penalty : Int) := by
  intro rows
  induction rows with
  | nil =>
      intro idx d hd res hres
      simp only [populate_full_study_plan] at hres
      cases hres
      exact hd
  | cons row rest ih =>
      intro idx d hd res hres
      by_cases hb : idx > penalty
      · simp only [populate_full_study_plan, if_pos hb] at hres
        cases hres
        exact hd
      · simp only [populate_full_study_plan, if_neg hb] at hres
        cases hls : getCell row pf.lemma_header_index with
        | error e => simp [bind, Except.bind, hls] at hres
        | ok ls =>
            cases his : getCellOpt row pf.inflection_header_index with
            | error e => simp [bind, Except.bind, hls, his] at hres
            | ok is =>
                simp only [bind, Except.bind, hls, his] at hres
                have hidx : (idx : Int) ≤ (penalty : Int) := by
                  exact_mod_cast Nat.le_of_not_lt hb
                exact ih (idx + 1) _
                  (values_le_assign d (penalty : Int) _ _ hd hidx) res
                  (by simpa using hres)

/-- C9: a full-format study plan is read only up to the cutoff row index —
the result equals the result on the first `penalty + 1` rows — and every
implicit row-index priority stored is at most the cutoff constant. -/
theorem study_plan_row_cutoff (penalty : Nat) (normalize : String → String)
    (pf : PriorityFile) (rows : List (List String))
    (hfmt : pf.format = PFFormat.Full) (htype : pf.type = PFType.StudyPlan) :
    get_morph_priorities_from_file penalty normalize pf false rows =
      get_morph_priorities_from_file penalty normalize pf false
        (rows.take (penalty + 1)) ∧
    ∀ d, get_morph_priorities_from_file penalty normalize pf false rows =
        Except.ok d →
      ∀ k v, pget d k = some v → v ≤ (penalty : Int) := by
  have hnpf : pf.type ≠ PFType.PriorityFile := by simp [htype]
  constructor
  · simp only [get_morph_priorities_from_file, hfmt, htype, hnpf]
    simpa using populate_study_plan_take penalty normalize pf rows 0 []
  · intro d hd
    simp only [get_morph_priorities_from_file, hfmt, htype, hnpf] at hd
    refine populate_study_plan_values_le penalty normalize pf rows 0 []
      (fun k v h => by simp [pget] at h) d ?_
    simpa using hd

/-- Witness for C9: penalty 1 with three rows; the third row is dropped and
the stored row-index priority 0 is at most the cutoff. -/
theorem study_plan_row_cutoff_witness :
    (get_morph_priorities_from_file 1 (fun s => s)
        { type := PFType.StudyPlan, format := PFFormat.Full,
          lemma_header_index := 0, inflection_header_index := some 1 } false
        [["a", "a"], ["b", "b"], ["c", "c"]] =
      get_morph_priorities_from_file 1 (fun s => s)
        { type := PFType.StudyPlan, format := PFFormat.Full,
          lemma_header_index := 0, inflection_header_index := some 1 } false
        ([["a", "a"], ["b", "b"], ["c", "c"]].take 2)) ∧
    (0 : Int) ≤ (1 : Int) := by
  constructor
  · exact (study_plan_row_cutoff 1 (fun s => s) _
      [["a", "a"], ["b", "b"], ["c", "c"]] rfl rfl).1
  · exact (study_plan_row_cutoff 1 (fun s => s)
      { type := PFType.StudyPlan, format := PFFormat.Full,
        lemma_header_index := 0, inflection_header_index := some 1 }
      [["a", "a"], ["b", "b"], ["c", "c"]] rfl rfl).2
      [(("a", "a", ""), (0 : Int)), (("b", "b", ""), (1 : Int))] rfl
      ("a", "a", "") 0 rfl

/-- C4: for `"予定[よてい]です"` with one morpheme matching only `"です"`
(ruby `[0,2)` and morph `[2,4)` disjoint, morph later), the sweep wraps the
morph in its own status markup, and the ruby keeps its raw bracket form
`予定[よてい]` in the output — the later passes of the same call wrap it in
a manufactured "undefined" status.  Holds for every rendering and every
learning status of the morph. -/
theorem highlighter_disjoint_morph_later_raw_ruby (rnd : Rendering)
    (stLabel : String) :
    highlighted rnd "予定[よてい]です".toList [⟨"です".toList, stLabel⟩] =
      some (rnd.statusOpen STATUS_UNDEFINED ++ "予定[よてい]".toList
        ++ rnd.statusClose STATUS_UNDEFINED ++ rnd.statusOpen stLabel
        ++ "です".toList ++ rnd.statusClose stLabel) := by
  have h1 : tag_rubies "予定[よてい]です".toList =
      (['予', '定', 'で', 'す'], [⟨0, 2, ['予', '定'], ['よ', 'て', 'い']⟩]) := rfl
  have h2 : tag_morphemes ((['予', '定', 'で', 'す'] : List Char).map pyLower)
      [⟨"です".toList, stLabel⟩] =
      some [⟨2, 4, stLabel, ['で', 'す']⟩] := rfl
  simp only [highlighted, h1, h2]
  norm_num
  simp [processLoop, statusInject, pySlice, pullRubies, rubyRender,
    STATUS_UNDEFINED]

/-- Witness for C3 at a concrete mapping and concrete legacy key. -/
theorem serialization_roundtrip_witness :
    (load_dict_from_json_file
        (save_to_json_file [(("a".toList, "b".toList, "c".toList), 1)]) =
      [(("a".toList, "b".toList, "c".toList), 1)].map
        (fun p => (tripleAsParts p.1, p.2))) ∧
    load_dict_from_json_file [("x".toList ++ '|' :: "y".toList, 2)] =
      [(["x".toList, "y".toList, []], 2)] :=
  ⟨(serialization_roundtrip _ (by decide) (by decide)).1,
   (serialization_roundtrip [] (by decide) (by decide)).2
     "x".toList "y".toList 2 (by decide) (by decide)⟩

theorem pullRubies_length_le (rnd : Rendering) (st : StatusI) :
    ∀ (R : List RubyI) (text : List Char),
      (pullRubies rnd st R text).2.length ≤ R.length := by
  intro R
  induction R with
  | nil => intro text; simp [pullRubies]
  | cons r rs ih =>
      intro text
      by_cases h : r.stop ≤ st.start
      · simp [pullRubies, h]
      · simp only [pullRubies, if_neg h]
        exact le_trans (ih _) (by simp)

theorem pullRubies_mem (rnd : Rendering) (st : StatusI) :
    ∀ (R : List RubyI) (text : List Char) (r : RubyI),
      r ∈ (pullRubies rnd st R text).2 → r ∈ R := by
  intro R
  induction R with
  | nil => intro text r h; simp [pullRubies] at h
  | cons x xs ih =>
      intro text r h
      by_cases hx : x.stop ≤ st.start
      · simp only [pullRubies, if_pos hx] at h
        exact h
      · simp only [pullRubies, if_neg hx] at h
        exact List.mem_cons_of_mem x (ih _ r h)

theorem dropStatuses_length_le (r : RubyI) :
    ∀ (S : List StatusI), (dropStatuses r S).length ≤ S.length := by
  intro S
  induction S with
  | nil => simp [dropStatuses]
  | cons s ss ih =>
      by_cases h : s.stop ≤ r.start
      · simp [dropStatuses, h]
      · simp only [dropStatuses, if_neg h]
        exact le_trans ih (by simp)

theorem refill_ruby (rnd : Rendering) (n : Nat) (text : List Char)
    (x : RubyI) (xs : List RubyI) (S : List StatusI) (so : Option StatusI) :
    processLoop rnd (n + 1) ⟨text, x :: xs, S, none, so⟩ =
      processLoop rnd (n + 1) ⟨text, xs, S, some x, so⟩ := rfl

theorem refill_status (rnd : Rendering) (n : Nat) (text : List Char)
    (R : List RubyI) (ro : Option RubyI) (x : StatusI) (xs : List StatusI) :
    processLoop rnd (n + 1) ⟨text, R, x :: xs, ro, none⟩ =
      processLoop rnd (n + 1) ⟨text, R, xs, ro, some x⟩ := by
  cases ro <;> rfl

theorem processLoop_both_slots (rnd : Rendering) (n : Nat)
    (ih : ∀ m, m < n + 1 → ∀ st : ProcState,
      (∀ r ∈ st.rubies, r.start < r.stop) →
      (∀ r, st.ruby = some r → r.start < r.stop) →
      2 * cMeasure st + 3 ≤ m → processLoop rnd m st ≠ none)
    (text : List Char) (R' : List RubyI) (S' : List StatusI)
    (r0 : RubyI) (s0 : StatusI)
    (hwr : r0.start < r0.stop)
    (hR' : ∀ r ∈ R', r.start < r.stop)
    (hb : 2 * (R'.length + S'.length + 2) + 3 ≤ n + 1) :
    processLoop rnd (n + 1) ⟨text, R', S', some r0, some s0⟩ ≠ none := by
  simp only [processLoop]
  by_cases h4 : r0.stop ≤ s0.start ∨ r0.start ≥ s0.stop
  · rw [if_pos h4]
    by_cases h4a : r0.start > s0.start
    · rw [if_pos h4a]
      apply ih n (by omega)
      · exact hR'
      · simp
      · simp only [cMeasure]
        omega
    · rw [if_neg h4a]
      apply ih n (by omega)
      · exact hR'
      · intro r hrr
        cases hrr
        exact hwr
      · simp only [cMeasure]
        omega
  · rw [if_neg h4]
    by_cases h56 : r0.start ≥ s0.start ∧ r0.stop ≤ s0.stop
    · rw [if_pos h56]
      apply ih n (by omega)
      · intro r hrr
        exact hR' r (pullRubies_mem rnd s0 R' _ r hrr)
      · simp
      · simp only [cMeasure]
        have := pullRubies_length_le rnd s0 R'
          (List.take s0.start text ++ rnd.statusOpen s0.status ++
            pySlice text s0.start (s0.start + r0.start - s0.start) ++
            rubyRender r0 ++ pySlice text r0.stop s0.stop ++
            rnd.statusClose s0.status ++ List.drop s0.stop text)
        omega
    · rw [if_neg h56]
      by_cases h78 : r0.start ≤ s0.start
      · rw [if_pos h78]
        apply ih n (by omega)
        · exact hR'
        · simp
        · simp only [cMeasure]
          have := dropStatuses_length_le r0 S'
          omega
      · rw [if_neg h78]
        apply ih n (by omega)
        · exact hR'
        · simp
        · simp only [cMeasure]
          omega

theorem processLoop_ruby_slot (rnd : Rendering) (n : Nat)
    (ih : ∀ m, m < n + 1 → ∀ st : ProcState,
      (∀ r ∈ st.rubies, r.start < r.stop) →
      (∀ r, st.ruby = some r → r.start < r.stop) →
      2 * cMeasure st + 3 ≤ m → processLoop rnd m st ≠ none)
    (text : List Char) (R' : List RubyI) (S : List StatusI)
    (so : Option StatusI) (r0 : RubyI)
    (hwr : r0.start < r0.stop)
    (hR' : ∀ r ∈ R', r.start < r.stop)
    (hb : 2 * (R'.length + S.length +
        (match so with | some _ => 1 | none => 0) + 1) + 3 ≤ n + 1) :
    processLoop rnd (n + 1) ⟨text, R', S, some r0, so⟩ ≠ none := by
  cases so with
  | some s0 =>
      apply processLoop_both_slots rnd n ih text R' S r0 s0 hwr hR'
      simp at hb
      omega
  | none =>
      cases S with
      | cons s0 S' =>
          rw [refill_status]
          apply processLoop_both_slots rnd n ih text R' S' r0 s0 hwr hR'
          simp [List.length_cons] at hb
          omega
      | nil =>
          -- scenario 3: manufacture a status for the ruby, then the next
          -- iteration necessarily lands in the equal-span case
          simp only at hb
          obtain ⟨n', rfl⟩ : ∃ n', n = n' + 1 := ⟨n - 1, by omega⟩
          have step1 : processLoop rnd (n' + 1 + 1)
              ⟨text, R', [], some r0, none⟩ =
              processLoop rnd (n' + 1)
                ⟨text, R', [], some r0,
                  some ⟨r0.start, r0.stop, STATUS_UNDEFINED,
                    pySlice text r0.start r0.stop⟩⟩ := rfl
          rw [step1]
          simp only [processLoop]
          rw [if_neg (by omega : ¬ (r0.stop ≤ r0.start ∨ r0.start ≥ r0.stop))]
          rw [if_pos (by omega : r0.start ≥ r0.start ∧ r0.stop ≤ r0.stop)]
          apply ih n' (by omega)
          · intro r hrr
            exact hR' r (pullRubies_mem rnd _ R' _ r hrr)
          · simp
          · simp only [cMeasure]
            have := pullRubies_length_le rnd
              ⟨r0.start, r0.stop, STATUS_UNDEFINED,
                pySlice text r0.start r0.stop⟩ R'
              (List.take r0.start text ++ rnd.statusOpen STATUS_UNDEFINED ++
                pySlice text r0.start (r0.start + r0.start - r0.start) ++
                rubyRender r0 ++ pySlice text r0.stop r0.stop ++
                rnd.statusClose STATUS_UNDEFINED ++ List.drop r0.stop text)
            omega

theorem processLoop_progress (rnd : Rendering) :
    ∀ fuel st,
      (∀ r ∈ ProcState.rubies st, r.start < r.stop) →
      (∀ r, ProcState.ruby st = some r → r.start < r.stop) →
      2 * cMeasure st + 3 ≤ fuel →
      processLoop rnd fuel st ≠ none := by
  intro fuel
  induction fuel using Nat.strong_induction_on with
  | _ fuel ih =>
    intro st hR hr hb
    obtain ⟨text, R, S, ro, so⟩ := st
    obtain ⟨n, rfl⟩ : ∃ n, fuel = n + 1 := ⟨fuel - 1, by omega⟩
    simp only [cMeasure] at hb
    simp only at hR hr hb
    cases ro with
    | none =>
        cases R with
        | nil =>
            cases so with
            | none =>
                cases S with
                | nil => simp [processLoop]
                | cons s0 S' =>
                    rw [refill_status]
                    have step : processLoop rnd (n + 1)
                        ⟨text, [], S', none, some s0⟩ =
                        processLoop rnd n
                          ⟨statusInject rnd s0 text, [], S', none, none⟩ := rfl
                    rw [step]
                    apply ih n (by omega)
                    · simp
                    · simp
                    · simp only [cMeasure]
                      simp only [List.length_cons] at hb
                      simp only [List.length_nil]
                      omega
            | some s0 =>
                have step : processLoop rnd (n + 1)
                    ⟨text, [], S, none, some s0⟩ =
                    processLoop rnd n
                      ⟨statusInject rnd s0 text, [], S, none, none⟩ := rfl
                rw [step]
                apply ih n (by omega)
                · simp
                · simp
                · simp only [cMeasure]
                  simp only [List.length_nil] at hb ⊢
                  simp at hb
                  omega
        | cons r0 R' =>
            rw [refill_ruby]
            have hwr : r0.start < r0.stop := hR r0 (List.mem_cons_self r0 R')
            have hR' : ∀ r ∈ R', r.start < r.stop :=
              fun r hrm => hR r (List.mem_cons_of_mem r0 hrm)
            apply processLoop_ruby_slot rnd n ih text R' S so r0 hwr hR'
            simp only [List.length_cons] at hb
            omega
    | some r0 =>
        have hwr : r0.start < r0.stop := hr r0 rfl
        rw [show (match (some r0 : Option RubyI) with
              | some _ => 1 | none => 0) = 1 from rfl] at hb
        apply processLoop_ruby_slot rnd n ih text R S so r0 hwr hR
        omega

theorem nth_append_left (l1 l2 : List Char) :
    ∀ n, n < l1.length → nth (l1 ++ l2) n = nth l1 n := by
  induction l1 with
  | nil => intro n h; simp at h
  | cons c l ih =>
      intro n h
      cases n with
      | zero => rfl
      | succ m => exact ih m (by simpa using h)

theorem nth_append_right (l1 l2 : List Char) :
    ∀ n, nth (l1 ++ l2) (l1.length + n) = nth l2 n := by
  induction l1 with
  | nil => intro n; simp [nth]
  | cons c l ih =>
      intro n
      have : (c :: l).length + n = (l.length + n) + 1 := by
        simp [List.length_cons]; omega
      rw [this]
      exact ih n

theorem nth_replicate (k : Nat) (c : Char) :
    ∀ n, n < k → nth (List.replicate k c) n = some c := by
  induction k with
  | zero => intro n h; omega
  | succ m ih =>
      intro n h
      cases n with
      | zero => rfl
      | succ p => exact ih p (by omega)

theorem nth_take (l : List Char) :
    ∀ (a n : Nat), n < a → nth (l.take a) n = nth l n := by
  induction l with
  | nil => intro a n h; simp [nth]
  | cons c t ih =>
      intro a n h
      cases a with
      | zero => omega
      | succ a' =>
          cases n with
          | zero => rfl
          | succ m => exact ih a' m (by omega)

theorem nth_drop (l : List Char) :
    ∀ (a n : Nat), nth (l.drop a) n = nth l (a + n) := by
  induction l with
  | nil => intro a n; simp [nth]
  | cons c t ih =>
      intro a n
      cases a with
      | zero => rw [Nat.zero_add]; rfl
      | succ a' =>
          have : a' + 1 + n = (a' + n) + 1 := by omega
          rw [this]
          exact ih a' n

theorem nth_mem (l : List Char) : ∀ n c, nth l n = some c → c ∈ l := by
  induction l with
  | nil => intro n c h; simp [nth] at h
  | cons x t ih =>
      intro n c h
      cases n with
      | zero =>
          cases h
          exact List.mem_cons_self x t
      | succ m => exact List.mem_cons_of_mem x (ih m c h)

theorem isPrefixOf_append (sub : List Char) :
    ∀ l, sub.isPrefixOf l = true → ∃ t, l = sub ++ t := by
  induction sub with
  | nil => intro l _; exact ⟨l, rfl⟩
  | cons c s ih =>
      intro l h
      cases l with
      | nil => simp [List.isPrefixOf] at h
      | cons x t =>
          simp only [List.isPrefixOf, Bool.and_eq_true, beq_iff_eq] at h
          obtain ⟨t', ht'⟩ := ih t h.2
          exact ⟨t', by rw [h.1, ht']; rfl⟩

theorem pyFind_prefix : ∀ (e sub : List Char) (i : Nat),
    pyFind e sub = some i → ∃ t, e.drop i = sub ++ t := by
  intro e
  induction e with
  | nil =>
      intro sub i h
      simp only [pyFind] at h
      by_cases hp : sub.isPrefixOf [] = true
      · rw [if_pos hp] at h
        cases h
        exact isPrefixOf_append sub [] hp
      · rw [if_neg hp] at h
        cases h
  | cons c rest ih =>
      intro sub i h
      simp only [pyFind] at h
      by_cases hp : sub.isPrefixOf (c :: rest) = true
      · rw [if_pos hp] at h
        cases h
        exact isPrefixOf_append sub (c :: rest) hp
      · rw [if_neg hp] at h
        cases hfind : pyFind rest sub with
        | none => rw [hfind] at h; cases h
        | some j =>
            rw [hfind] at h
            cases h
            exact ih sub j hfind

theorem blankRange_length (e : List Char) (a b : Nat) (h1 : a ≤ b)
    (h2 : b ≤ e.length) : (blankRange e a b).length = e.length := by
  simp [blankRange]
  omega

theorem blankRange_nth_inside (e : List Char) (a b p : Nat) (h1 : a ≤ p)
    (h2 : p < b) (h3 : b ≤ e.length) :
    nth (blankRange e a b) p = some ' ' := by
  unfold blankRange
  rw [List.append_assoc]
  have hta : (e.take a).length = a := by
    simp
    omega
  have hp : p = (e.take a).length + (p - a) := by omega
  rw [hp, nth_append_right]
  rw [nth_append_left _ _ (p - a) (by simp; omega)]
  exact nth_replicate (b - a) ' ' (p - a) (by omega)

theorem blankRange_nth_outside (e : List Char) (a b p : Nat)
    (h : p < a ∨ b ≤ p) (h1 : a ≤ b) (h2 : b ≤ e.length) :
    nth (blankRange e a b) p = nth e p := by
  unfold blankRange
  rw [List.append_assoc]
  have hta : (e.take a).length = a := by simp; omega
  cases h with
  | inl hl =>
      rw [nth_append_left _ _ p (by omega)]
      exact nth_take e a p hl
  | inr hr =>
      have hp : p = (e.take a).length + ((b - a) + (p - b)) := by omega
      conv_lhs => rw [hp]
      rw [nth_append_right]
      rw [show (b - a) + (p - b) = (List.replicate (b - a) ' ').length + (p - b)
          from by simp]
      rw [nth_append_right, nth_drop]
      congr 1
      omega

theorem tag_morph_occurrences_inv (m : Morpheme) (hne : m.inflection ≠ [])
    (hns : ' ' ∉ m.inflection) :
    ∀ (fuel : Nat) (e : List Char) (acc : List StatusI)
      (e' : List Char) (acc' : List StatusI),
      tag_morph_occurrences m fuel e acc = some (e', acc') →
      (∀ st ∈ acc, spacesAt e st) → List.Pairwise statusDisjoint acc →
      e'.length = e.length ∧ (∀ st ∈ acc', spacesAt e' st) ∧
        List.Pairwise statusDisjoint acc' := by
  intro fuel
  induction fuel with
  | zero => intro e acc e' acc' h; simp [tag_morph_occurrences] at h
  | succ n ih =>
      intro e acc e' acc' h hsp hpw
      simp only [tag_morph_occurrences] at h
      cases hfind : pyFind e m.inflection with
      | none =>
          rw [hfind] at h
          cases h
          exact ⟨rfl, hsp, hpw⟩
      | some i =>
          rw [hfind] at h
          obtain ⟨t, ht⟩ := pyFind_prefix e m.inflection i hfind
          have hlen : m.inflection.length + t.length = e.length - i := by
            have := congrArg List.length ht
            simpa using this.symm
          have hne' : 0 < m.inflection.length := by
            cases hm : m.inflection with
            | nil => exact absurd hm hne
            | cons a l => simp [hm]
          have hdl : (e.drop i).length = e.length - i := by simp
          have hib : i + m.inflection.length ≤ e.length := by omega
          -- characters of the match are the pattern's characters
          have hchar : ∀ j, j < m.inflection.length →
              nth e (i + j) = nth m.inflection j := by
            intro j hj
            rw [← nth_drop, ht]
            exact nth_append_left _ _ j hj
          -- the new span is disjoint from every recorded span
          have hdisj : ∀ st ∈ acc, statusDisjoint st
              ⟨i, i + m.inflection.length, m.learningStatus, m.inflection⟩ := by
            intro st hst
            obtain ⟨hwf, hle, hsp'⟩ := hsp st hst
            by_contra hcon
            unfold statusDisjoint at hcon
            push_neg at hcon
            have hcon' : i < st.stop ∧ st.start < i + m.inflection.length :=
              hcon
            set p := max st.start i with hp
            have h1 : st.start ≤ p := le_max_left _ _
            have h2 : i ≤ p := le_max_right _ _
            have h3 : p < st.stop := by omega
            have h4 : p < i + m.inflection.length := by
              rcases hcon' with ⟨hc1, hc2⟩
              omega
            have hspace := hsp' p h1 h3
            have hchr := hchar (p - i) (by omega)
            rw [show i + (p - i) = p from by omega] at hchr
            rw [hspace] at hchr
            have : (' ' : Char) ∈ m.inflection :=
              nth_mem m.inflection (p - i) ' ' hchr.symm
            exact hns this
          have hblen : (blankRange e i (i + m.inflection.length)).length =
              e.length := blankRange_length e i _ (by omega) hib
          have hstep := ih (blankRange e i (i + m.inflection.length))
            (acc ++ [⟨i, i + m.inflection.length, m.learningStatus,
              m.inflection⟩]) e' acc' h ?_ ?_
          · exact ⟨by rw [hstep.1, hblen], hstep.2.1, hstep.2.2⟩
          · -- all recorded spans (old and new) are spaces after blanking
            intro st hst
            rw [List.mem_append] at hst
            cases hst with
            | inl hold =>
                obtain ⟨hwf, hle, hsp'⟩ := hsp st hold
                refine ⟨hwf, by omega, ?_⟩
                intro p hp1 hp2
                by_cases hin : i ≤ p ∧ p < i + m.inflection.length
                · exact blankRange_nth_inside e i _ p hin.1 hin.2 hib
                · rw [blankRange_nth_outside e i _ p (by omega) (by omega) hib]
                  exact hsp' p hp1 hp2
            | inr hnew =>
                rw [List.mem_singleton] at hnew
                subst hnew
                refine ⟨show i < i + m.inflection.length from by omega,
                  show i + m.inflection.length ≤
                      (blankRange e i (i + m.inflection.length)).length from by
                    rw [hblen]; exact hib, ?_⟩
                intro p hp1 hp2
                exact blankRange_nth_inside e i _ p hp1 hp2 hib
          · rw [List.pairwise_append]
            refine ⟨hpw, List.pairwise_singleton _ _, ?_⟩
            intro a ha b hb
            rw [List.mem_singleton] at hb
            subst hb
            exact hdisj a ha

theorem tag_morphemes_go_inv (fuel : Nat) :
    ∀ (morphs : List Morpheme) (e : List Char) (acc : List StatusI)
      (sts : List StatusI),
      (∀ m ∈ morphs, m.inflection ≠ [] ∧ ' ' ∉ m.inflection) →
      tag_morphemes_go fuel morphs e acc = some sts →
      (∀ st ∈ acc, spacesAt e st) → List.Pairwise statusDisjoint acc →
      List.Pairwise statusDisjoint sts := by
  intro morphs
  induction morphs with
  | nil =>
      intro e acc sts _ h _ hpw
      simp only [tag_morphemes_go] at h
      cases h
      exact hpw
  | cons m rest ih =>
      intro e acc sts hm h hsp hpw
      simp only [tag_morphemes_go] at h
      cases hocc : tag_morph_occurrences m fuel e acc with
      | none => rw [hocc] at h; cases h
      | some p =>
          rw [hocc] at h
          obtain ⟨hm1, hm2⟩ := hm m (List.mem_cons_self m rest)
          have := tag_morph_occurrences_inv m hm1 hm2 fuel e acc p.1 p.2
            hocc hsp hpw
          exact ih p.1 p.2 sts
            (fun q hq => hm q (List.mem_cons_of_mem m hq)) h
            this.2.1 this.2.2

/-- C10 amended: when every inflection is nonempty and contains no space
character, a completed morpheme-discovery pass records pairwise-disjoint
intervals, and the final deque is sorted ascending by start offset. -/
theorem tag_morphemes_disjoint_sorted (expr : List Char)
    (morphs : List Morpheme) (sts : List StatusI)
    (hm : ∀ m ∈ morphs, m.inflection ≠ [] ∧ ' ' ∉ m.inflection)
    (h : tag_morphemes expr morphs = some sts) :
    List.Pairwise statusDisjoint sts ∧
      List.Sorted (fun a b : StatusI => a.start ≤ b.start) sts := by
  unfold tag_morphemes at h
  cases hgo : tag_morphemes_go (expr.length + 2)
      (List.insertionSort
        (fun m1 m2 => m2.inflection.length ≤ m1.inflection.length) morphs)
      expr [] with
  | none => rw [hgo] at h; cases h
  | some sts0 =>
      rw [hgo] at h
      have h' : List.insertionSort (fun a b : StatusI => a.start ≤ b.start)
          sts0 = sts := by simpa [Option.map] using h
      have hperm := List.perm_insertionSort
        (fun m1 m2 => m2.inflection.length ≤ m1.inflection.length) morphs
      have hm' : ∀ m ∈ List.insertionSort
          (fun m1 m2 => m2.inflection.length ≤ m1.inflection.length) morphs,
          m.inflection ≠ [] ∧ ' ' ∉ m.inflection :=
        fun m hmem => hm m (hperm.mem_iff.mp hmem)
      have hpw0 := tag_morphemes_go_inv (expr.length + 2) _ expr [] sts0 hm'
        hgo (by simp) (by simp)
      have hperm2 := List.perm_insertionSort
        (fun a b : StatusI => a.start ≤ b.start) sts0
      have hsymm : Symmetric statusDisjoint := by
        intro x y hxy
        unfold statusDisjoint at *
        exact Or.symm hxy
      constructor
      · rw [← h']
        exact (List.Perm.pairwise_iff (fun {x y} => hsymm (x := x) (y := y)) hperm2).mpr hpw0
      · rw [← h']
        haveI : IsTotal StatusI (fun a b : StatusI => a.start ≤ b.start) :=
          ⟨fun a b => Nat.le_total a.start b.start⟩
        haveI : IsTrans StatusI (fun a b : StatusI => a.start ≤ b.start) :=
          ⟨fun a b c h1 h2 => le_trans h1 h2⟩
        exact List.sorted_insertionSort _ sts0

theorem zero_width_ruby_loops_aux (fuel : Nat) :
    ∀ (text : List Char) (sOpt : Option StatusI),
      (sOpt = none ∨ sOpt = some ⟨1, 1, STATUS_UNDEFINED, []⟩) →
      processLoop trivialRendering fuel
          ⟨text, [], [], some ⟨1, 1, [], []⟩, sOpt⟩ = none := by
  induction fuel with
  | zero => intro text sOpt _; rfl
  | succ n ih =>
      intro text sOpt hs
      cases hs with
      | inl h =>
          subst h
          show processLoop trivialRendering (n + 1) _ = none
          simp only [processLoop]
          have := ih text (some ⟨1, 1, STATUS_UNDEFINED, pySlice text 1 1⟩)
            (Or.inr (by simp [pySlice]))
          simpa [pySlice] using this
      | inr h =>
          subst h
          show processLoop trivialRendering (n + 1) _ = none
          simp only [processLoop]
          norm_num
          exact ih _ none (Or.inl rfl)

/-- C5 counterexample: with the malformed (zero-width) ruby interval
`[1,1)`, scenario 3 manufactures an equal-span status which scenario 4's
else-branch then consumes without clearing the ruby, forever — the sweep
never terminates, for any amount of fuel. -/
theorem process_termination_counterexample :
    ¬ ProcessTerminates trivialRendering
      ⟨['a', 'b'], [⟨1, 1, [], []⟩], [], none, none⟩ := by
  rintro ⟨fuel, hs⟩
  cases fuel with
  | zero => simp [processLoop] at hs
  | succ n =>
      rw [show processLoop trivialRendering (n + 1)
            ⟨['a', 'b'], [⟨1, 1, [], []⟩], [], none, none⟩ =
          processLoop trivialRendering n
            ⟨['a', 'b'], [], [], some ⟨1, 1, [], []⟩,
              some ⟨1, 1, STATUS_UNDEFINED, pySlice ['a', 'b'] 1 1⟩⟩ from by
          simp [processLoop]] at hs
      rw [zero_width_ruby_loops_aux n ['a', 'b'] _ (Or.inr (by simp [pySlice]))] at hs
      simp at hs

/-- C5 amended: the reconciliation sweep terminates for every working
string and deques in which every ruby interval is non-degenerate
(start < end); status intervals may have any shape.  The explicit fuel
`2*(|rubies|+|statuses|)+4` always suffices. -/
theorem process_terminates_for_wellformed_rubies (rnd : Rendering)
    (text : List Char) (R : List RubyI) (S : List StatusI)
    (hR : ∀ r ∈ R, r.start < r.stop) :
    processLoop rnd (2 * (R.length + S.length) + 4)
      ⟨text, R, S, none, none⟩ ≠ none := by
  apply processLoop_progress rnd _ ⟨text, R, S, none, none⟩ hR
    (fun r hr => by cases hr)
  show 2 * cMeasure ⟨text, R, S, none, none⟩ + 3 ≤ 2 * (R.length + S.length) + 4
  simp only [cMeasure]
  omega

/-- Witness for the amended C5 at a concrete ruby deque. -/
theorem process_terminates_for_wellformed_rubies_witness :
    processLoop trivialRendering (2 * (([⟨0, 1, [], []⟩] : List RubyI).length +
        ([] : List StatusI).length) + 4)
      ⟨"ab".toList, [⟨0, 1, [], []⟩], [], none, none⟩ ≠ none :=
  process_terminates_for_wellformed_rubies trivialRendering "ab".toList
    [⟨0, 1, [], []⟩] [] (by decide)

/-- C10 counterexample: with the space-containing (yet non-empty)
inflection `" a"`, discovery on `"wxya"` terminates but records the
overlapping intervals `[0,3)` and `[2,4)` — the space of `" a"` matches a
position already blanked by `"wxy"`. -/
theorem tag_morphemes_disjoint_counterexample :
    tag_morphemes "wxya".toList [⟨"wxy".toList, "s1"⟩, ⟨" a".toList, "s2"⟩] =
      some [⟨0, 3, "s1", "wxy".toList⟩, ⟨2, 4, "s2", " a".toList⟩] ∧
    (∀ m ∈ [(⟨"wxy".toList, "s1"⟩ : Morpheme), ⟨" a".toList, "s2"⟩],
      m.inflection ≠ []) ∧
    ¬ List.Pairwise statusDisjoint
        [(⟨0, 3, "s1", "wxy".toList⟩ : StatusI), ⟨2, 4, "s2", " a".toList⟩] :=
  ⟨rfl, by decide, by decide⟩

/-- Witness for the amended C10 at a concrete expression and morpheme. -/
theorem tag_morphemes_disjoint_sorted_witness :
    List.Pairwise statusDisjoint [(⟨0, 1, "s", "a".toList⟩ : StatusI)] ∧
      List.Sorted (fun a b : StatusI => a.start ≤ b.start)
        [(⟨0, 1, "s", "a".toList⟩ : StatusI)] :=
  tag_morphemes_disjoint_sorted "ab".toList [⟨"a".toList, "s"⟩]
    [⟨0, 1, "s", "a".toList⟩] (by decide) rfl

end PrioritySieve
